import Mathlib

/-!
Verification of the tgcryptfs storage engine against its specification.

Shallow embedding of the relevant Rust sources:
  - `src/raid/erasure.rs`   (Reed-Solomon erasure codec wrapper)
  - `src/metadata/store.rs` (chunk refcount rows in the `chunks` tree)
  - `src/cache/lru.rs`      (lazy-tombstone LRU tracker)
  - `src/cache/mod.rs`      (disk chunk cache size accounting)
  - `src/fs/filesystem.rs`  (write path dedup / AEAD calls / setattr truncate)
  - `src/raid/pool.rs`      (stripe upload with partial-failure semantics)

Machine integers are modelled as `Nat` with explicit reductions modulo
`2 ^ 32` / `2 ^ 64` where the Rust code stores fixed-width values.
Fallible operations return `Except Error _` with `Error` mirroring the
variants of `src/error.rs` that these code paths construct.
-/

namespace Tgcryptfs

/-- Subset of the `Error` enum from `src/error.rs` constructed by the
embedded code paths. -/
inductive Error where
  | Internal (msg : String)
  | CacheFull
  | ErasureFailed (available required : Nat)
  | AccountUnavailable (account : Nat) (msg : String)
  | TelegramUpload (msg : String)
  deriving DecidableEq, Repr

/-! ## Big-endian byte encodings (`u32::to_be_bytes`, `u64::to_be_bytes`) -/

/-- Big-endian byte list of width `w` for `n` (each byte is
`(n >> 8*(w-1-i)) & 0xFF`), as produced by `to_be_bytes`. -/
def beBytes : Nat → Nat → List Nat
  | 0, _ => []
  | w + 1, n => (n / 256 ^ w % 256) :: beBytes w n

/-- `from_be_bytes`: fold the bytes back into a number. -/
def fromBe (l : List Nat) : Nat :=
  l.foldl (fun acc b => acc * 256 + b) 0

/-! ## The `chunks` tree of the metadata store (`src/metadata/store.rs`)

The sled tree `chunks` maps `chunk_id` (string key) to a raw byte value
`message_id(4, big-endian) || ref_count(4, big-endian)`.  We embed the
tree as an association list from chunk id to the raw byte value, with
sled's get/insert/remove semantics. -/

/-- The `chunks` sled tree: chunk id → raw stored bytes. -/
abbrev ChunksTree := List (String × List Nat)

/-- Tree lookup (`sled::Tree::get`). -/
def treeGet (t : ChunksTree) (id : String) : Option (List Nat) :=
  match t with
  | [] => none
  | (k, v) :: rest => if k = id then some v else treeGet rest id

/-- Remove a key (`sled::Tree::remove`). -/
def treeRemove (t : ChunksTree) (id : String) : ChunksTree :=
  match t with
  | [] => []
  | (k, v) :: rest =>
    if k = id then treeRemove rest id else (k, v) :: treeRemove rest id

/-- Insert/replace a key (`sled::Tree::insert`). -/
def treeInsert (t : ChunksTree) (id : String) (v : List Nat) : ChunksTree :=
  (id, v) :: treeRemove t id

/-- `MetadataStore::save_chunk_ref` (store.rs:313-332): upsert the row,
computing the new refcount from the existing raw value. -/
def save_chunk_ref (t : ChunksTree) (chunk_id : String) (message_id : Nat) :
    ChunksTree :=
  let ref_count :=
    match treeGet t chunk_id with
    | some data =>
      if data.length ≥ 8 then (fromBe ((data.drop 4).take 4) + 1) % 2 ^ 32 else 1
    | none => 1
  treeInsert t chunk_id (beBytes 4 message_id ++ beBytes 4 ref_count)

/-- `MetadataStore::get_chunk_ref` (store.rs:335-345): read the message id
from the first four bytes of the row, if present and long enough. -/
def get_chunk_ref (t : ChunksTree) (chunk_id : String) : Option Nat :=
  match treeGet t chunk_id with
  | some data => if data.length ≥ 4 then some (fromBe (data.take 4)) else none
  | none => none

/-- `MetadataStore::decrement_chunk_ref` (store.rs:348-371): returns the
updated tree and `some message_id` exactly when the row was removed. -/
def decrement_chunk_ref (t : ChunksTree) (chunk_id : String) :
    ChunksTree × Option Nat :=
  match treeGet t chunk_id with
  | some data =>
    if data.length ≥ 8 then
      let msg_id := fromBe (data.take 4)
      let ref_count := fromBe ((data.drop 4).take 4)
      if ref_count ≤ 1 then
        (treeRemove t chunk_id, some msg_id)
      else
        (treeInsert t chunk_id
          (beBytes 4 msg_id ++ beBytes 4 (ref_count - 1)), none)
    else (t, none)
  | none => (t, none)

/-- The raw row value written for message id `m` and refcount `c`. -/
def chunkRow (m c : Nat) : List Nat :=
  beBytes 4 m ++ beBytes 4 c

/-! ## The LRU tracker (`src/cache/lru.rs`)

`LruCache<K>` keeps `order: VecDeque<(K, usize)>` (front = oldest),
`positions: HashMap<K, usize>` (key → current generation) and a
`generation` counter.  The hash map is embedded as an association list
with insert-replace semantics. -/

/-- `HashMap::get` on the positions map. -/
def posLookup {K : Type} [DecidableEq K] (k : K) :
    List (K × Nat) → Option Nat
  | [] => none
  | (k', g) :: rest => if k' = k then some g else posLookup k rest

/-- `HashMap::remove` on the positions map. -/
def posRemove {K : Type} [DecidableEq K] (k : K) :
    List (K × Nat) → List (K × Nat)
  | [] => []
  | (k', g) :: rest =>
    if k' = k then posRemove k rest else (k', g) :: posRemove k rest

/-- `HashMap::insert` (replace any existing binding). -/
def posInsert {K : Type} [DecidableEq K] (k : K) (g : Nat)
    (l : List (K × Nat)) : List (K × Nat) :=
  (k, g) :: posRemove k l

/-- The `LruCache<K>` struct (lru.rs:7-14). -/
structure LruCache (K : Type) where
  order : List (K × Nat)
  positions : List (K × Nat)
  generation : Nat
  deriving DecidableEq, Repr

/-- `LruCache::new`. -/
def LruCache.new {K : Type} : LruCache K := ⟨[], [], 0⟩

/-- `LruCache::insert` (lru.rs:26-31). -/
def LruCache.insert {K : Type} [DecidableEq K] (s : LruCache K) (k : K) :
    LruCache K :=
  let g := s.generation + 1
  ⟨s.order ++ [(k, g)], posInsert k g s.positions, g⟩

/-- `LruCache::touch` (lru.rs:33-39). -/
def LruCache.touch {K : Type} [DecidableEq K] (s : LruCache K) (k : K) :
    LruCache K :=
  if (posLookup k s.positions).isSome then
    let g := s.generation + 1
    ⟨s.order ++ [(k, g)], posInsert k g s.positions, g⟩
  else s

/-- `LruCache::remove` (lru.rs:42-45): lazy removal from the map only. -/
def LruCache.remove {K : Type} [DecidableEq K] (s : LruCache K) (k : K) :
    LruCache K :=
  { s with positions := posRemove k s.positions }

/-- The scan loop of `LruCache::pop_oldest` (lru.rs:48-62): pop entries
from the front, skipping stale ones, until a live entry is found. -/
def popAux {K : Type} [DecidableEq K] :
    List (K × Nat) → List (K × Nat) →
      Option K × (List (K × Nat) × List (K × Nat))
  | [], pos => (none, ([], pos))
  | (k, eg) :: rest, pos =>
    match posLookup k pos with
    | some cg =>
      if eg = cg then (some k, (rest, posRemove k pos)) else popAux rest pos
    | none => popAux rest pos

/-- `LruCache::pop_oldest`. -/
def LruCache.popOldest {K : Type} [DecidableEq K] (s : LruCache K) :
    Option K × LruCache K :=
  let r := popAux s.order s.positions
  (r.1, ⟨r.2.1, r.2.2, s.generation⟩)

/-- One operation of the claim's interleaving. -/
inductive LruOp (K : Type) where
  | insert (k : K)
  | touch (k : K)
  | remove (k : K)
  | pop
  deriving DecidableEq, Repr

/-- Apply one operation. -/
def lruStep {K : Type} [DecidableEq K] (s : LruCache K) : LruOp K → LruCache K
  | .insert k => s.insert k
  | .touch k => s.touch k
  | .remove k => s.remove k
  | .pop => s.popOldest.2

/-- Run a finite interleaving from a fresh tracker. -/
def lruRun {K : Type} [DecidableEq K] (ops : List (LruOp K)) : LruCache K :=
  ops.foldl lruStep LruCache.new

/-- Reachability invariant of the tracker: generations in `order` strictly
increase front to back, every live `(key, generation)` binding also occurs
in `order`, and all recorded generations are bounded by the counter. -/
structure LruInv {K : Type} [DecidableEq K] (s : LruCache K) : Prop where
  chain : s.order.Pairwise (fun a b => a.2 < b.2)
  live : ∀ k g, posLookup k s.positions = some g → (k, g) ∈ s.order
  bound : ∀ p ∈ s.order, p.2 ≤ s.generation

/-! ## The disk chunk cache (`src/cache/mod.rs`)

`ChunkCache` tracks `current_size: AtomicU64`, `max_size`, an
`LruCache<String>` and a `sizes: HashMap<String, u64>` map.  The cache
directory is embedded as a map from chunk id to the stored file's length
(`put` writes `data`, `get`/`contains` only need presence/length). -/

structure ChunkCache where
  max_size : Nat
  current_size : Nat
  lru : LruCache String
  sizes : List (String × Nat)
  files : List (String × Nat)
  deriving DecidableEq, Repr

/-- A fresh cache over an empty cache directory (`ChunkCache::new` +
`scan_cache` of an empty directory). -/
def ChunkCache.empty (max : Nat) : ChunkCache :=
  ⟨max, 0, LruCache.new, [], []⟩

/-- The eviction loop of `ChunkCache::ensure_space` (mod.rs:161-193),
with explicit fuel; each `Some` iteration consumes at least one `order`
entry, so `order.length + 1` steps of fuel always suffice. -/
def ensureSpaceAux : Nat → ChunkCache → Nat → Except Error ChunkCache
  | 0, c, _ => .ok c
  | fuel + 1, c, needed =>
    if c.current_size + needed > c.max_size then
      match c.lru.popOldest with
      | (some chunk_id, lru') =>
        let size := (posLookup chunk_id c.sizes).getD 0
        ensureSpaceAux fuel
          { c with
            lru := lru'
            sizes := posRemove chunk_id c.sizes
            files := posRemove chunk_id c.files
            current_size := c.current_size - size } needed
      | (none, lru') =>
        if needed > c.max_size then .error .CacheFull
        else .ok { c with lru := lru' }
    else .ok c

/-- `ChunkCache::ensure_space`. -/
def ensure_space (c : ChunkCache) (needed : Nat) : Except Error ChunkCache :=
  ensureSpaceAux (c.lru.order.length + 1) c needed

/-- `ChunkCache::put` (mod.rs:122-142): make room, write the file, then
record the insert and add the full data length to `current_size`. -/
def ChunkCache.put (c : ChunkCache) (chunk_id : String) (data : List Nat) :
    Except Error ChunkCache :=
  let size := data.length
  match ensure_space c size with
  | .error e => .error e
  | .ok c' =>
    .ok { c' with
      files := posInsert chunk_id size c'.files
      lru := c'.lru.insert chunk_id
      sizes := posInsert chunk_id size c'.sizes
      current_size := c'.current_size + size }

/-- `ChunkCache::contains`: the file exists in the cache directory. -/
def ChunkCache.containsChunk (c : ChunkCache) (chunk_id : String) : Bool :=
  (posLookup chunk_id c.files).isSome

/-- Run a sequence of `put` operations, stopping at the first error. -/
def runPuts (c : ChunkCache) :
    List (String × List Nat) → Except Error ChunkCache
  | [] => .ok c
  | (chunk_id, data) :: rest =>
    match c.put chunk_id data with
    | .error e => .error e
    | .ok c' => runPuts c' rest

/-- The failing input for C6: three puts, each of length at most
`max_size = 100`, two of them to the same chunk id. -/
def c6FailingPuts : List (String × List Nat) :=
  [("a", List.replicate 50 0), ("a", List.replicate 30 0),
   ("b", List.replicate 60 0)]

/-! ## Write-path dedup and AEAD calls (`src/fs/filesystem.rs`, `src/crypto/keys.rs`)

`write_file_data` (filesystem.rs:156-212) iterates the chunker's output;
for each chunk it derives the per-chunk key, encrypts with empty AAD,
then either reuses an existing refcount row (no upload) or uploads and
records a fresh row.  The per-chunk step is embedded as a function of
the `chunks` tree, the chunk id, and the message id the remote store
would return for a fresh upload. -/

/-- Arguments of one AEAD invocation: which derived key, and the AAD. -/
structure AeadCall where
  key_label : String
  aad : List Nat
  deriving DecidableEq, Repr

/-- `ChunkKey::derive` (keys.rs:94-96): HKDF purpose label
`"tgcryptfs-chunk-v1:" + chunk_id`. -/
def chunk_key_label (chunk_id : String) : String :=
  "tgcryptfs-chunk-v1:" ++ chunk_id

/-- The AEAD call issued by the write path for one chunk
(filesystem.rs:173-176): `encrypt(chunk_key.key(), &chunk_data, &[])`. -/
def writeChunkEncryptCall (chunk_id : String) : AeadCall :=
  ⟨chunk_key_label chunk_id, []⟩

/-- The AEAD call issued by the read path `get_chunk_data`
(filesystem.rs:136-139): `decrypt(chunk_key.key(), &encrypted, &[])`. -/
def readChunkDecryptCall (chunk_id : String) : AeadCall :=
  ⟨chunk_key_label chunk_id, []⟩

/-- UTF-8-as-codepoint bytes of a chunk id (chunk ids are ASCII hex). -/
def strBytes (s : String) : List Nat :=
  s.data.map Char.toNat

/-- Effects of the per-chunk dedup step of `write_file_data`
(filesystem.rs:178-190): the updated `chunks` tree, the chunk ids
uploaded remotely, and the message id recorded in the manifest entry. -/
structure WriteChunkEffects where
  tree : ChunksTree
  uploaded : List String
  entry_message_id : Nat
  deriving DecidableEq, Repr

/-- The dedup branch of `write_file_data` for one chunk: if
`get_chunk_ref` finds a row, only `save_chunk_ref` with the existing
message id runs; otherwise `upload_chunk` runs and the returned
`fresh_msg_id` is recorded. -/
def writeChunkStep (tree : ChunksTree) (chunk_id : String)
    (fresh_msg_id : Nat) : WriteChunkEffects :=
  match get_chunk_ref tree chunk_id with
  | some msg_id => ⟨save_chunk_ref tree chunk_id msg_id, [], msg_id⟩
  | none => ⟨save_chunk_ref tree chunk_id fresh_msg_id, [chunk_id], fresh_msg_id⟩

/-! ## Inode version on truncate (`src/fs/filesystem.rs` setattr) -/

/-- `FileType` (metadata inode module). -/
inductive FileType where
  | file
  | dir
  | symlink
  deriving DecidableEq, Repr

/-- `ChunkRef` (chunk/mod.rs:15-29). -/
structure ChunkRef where
  id : String
  size : Nat
  message_id : Nat
  offset : Nat
  original_size : Nat
  compressed : Bool
  deriving DecidableEq, Repr

/-- `ChunkManifest` (chunk/mod.rs:31-42). -/
structure ChunkManifest where
  version : Nat
  total_size : Nat
  chunks : List ChunkRef
  file_hash : String
  deriving DecidableEq, Repr

/-- `ChunkManifest::new` (chunk/mod.rs:45-53): empty manifest at the
given version. -/
def ChunkManifest.new (version : Nat) : ChunkManifest :=
  ⟨version, 0, [], ""⟩

/-- Modelled from the spec: the `Inode` struct — `src/metadata/inode.rs`
is not present under `src/`; spec §3 gives
`{ ino, ..., kind, size, ..., manifest?, version, ... }`.  Only the
fields the claims touch are embedded. -/
structure Inode where
  ino : Nat
  kind : FileType
  size : Nat
  version : Nat
  manifest : Option ChunkManifest
  deriving DecidableEq, Repr

/-- `Inode::is_file`: the kind is `file`. -/
def Inode.is_file (i : Inode) : Bool :=
  i.kind = FileType.file

/-- Modelled from the spec: `Inode::set_size` stores the size field
(spec §4.10 write path lists "inode.size = len" and "bump version" as
separate steps). -/
def Inode.set_size (i : Inode) (s : Nat) : Inode :=
  { i with size := s }

/-- Modelled from the spec: `Inode::bump_version` increments the
per-inode version counter (spec §4.12). -/
def Inode.bump_version (i : Inode) : Inode :=
  { i with version := i.version + 1 }

/-- The `Some(s) = size` branch of `setattr` (filesystem.rs:393-399):
on truncate to 0 of a file, replace the manifest by an empty one tagged
`version + 1`, then `set_size(s)`.  The source never calls
`bump_version` here. -/
def setattrSize (i : Inode) (s : Nat) : Inode :=
  let i1 :=
    if s = 0 ∧ i.is_file then
      { i with manifest := some (ChunkManifest.new (i.version + 1)) }
    else i
  i1.set_size s

/-- The inode update at the end of `write_file_data`
(filesystem.rs:204-208): set the manifest, `set_size`, `bump_version`. -/
def writeUpdateInode (i : Inode) (m : ChunkManifest) (len : Nat) : Inode :=
  ({ i with manifest := some m }.set_size len).bump_version

/-! ## Stripe upload over the account pool (`src/raid/pool.rs`)

`upload_stripe` (pool.rs:181-335) spawns one upload per planned block,
skipping accounts whose health status is `Unavailable`, then assembles a
`StripeInfo` with one `BlockLocation` per planned block and succeeds iff
at least K uploads succeeded.  The health snapshot each task reads is a
function `statuses`, the remote store is a function `net` giving the
message id a successful upload returns (`none` = the upload fails), and
the block plan is a list (see `PlannedBlock`). -/

/-- `AccountStatus` (health.rs:17-25). -/
inductive AccountStatus where
  | Healthy
  | Degraded
  | Unavailable
  | Rebuilding
  deriving DecidableEq, Repr

/-- `BlockLocation` (chunk/mod.rs:79-90). -/
structure BlockLocation where
  account_id : Nat
  message_id : Option Nat
  block_index : Nat
  uploaded_at : Option Nat
  deriving DecidableEq, Repr

/-- `StripeInfo` (chunk/mod.rs:92-102). -/
structure StripeInfo where
  blocks : List BlockLocation
  data_count : Nat
  parity_count : Nat
  block_size : Nat
  deriving DecidableEq, Repr

/-- Modelled from the spec: one entry of `Stripe::all_blocks()` — the
`Stripe` type pool.rs uses (with `all_blocks`, `chunk_id`, `data_count`)
is not present under `src/`; spec §4.8 describes the plan as "for each
block `(block_index, account_id, bytes)` in the plan", so the plan is
taken as the input of the embedded `upload_stripe`. -/
structure PlannedBlock where
  block_index : Nat
  account_id : Nat
  data : List Nat
  deriving DecidableEq, Repr

/-- One block's upload task (pool.rs:202-259): skip if the account is
`Unavailable`, error if the backend index is out of range, otherwise
upload and report the message id or the failure.  The error payload of a
failed upload is irrelevant downstream (it is only logged), so a failed
`net` is reported as a generic upload error. -/
def blockOutcome (statuses : Nat → AccountStatus) (backends : Nat)
    (net : Nat → Nat → Option Nat) (b : PlannedBlock) :
    Except (Nat × Nat × Error) (Nat × Nat × Nat) :=
  if statuses b.account_id = .Unavailable then
    .error (b.block_index, b.account_id,
      .AccountUnavailable b.account_id "Account marked as unavailable")
  else if backends ≤ b.account_id then
    .error (b.block_index, b.account_id,
      .AccountUnavailable b.account_id "Backend not found")
  else
    match net b.block_index b.account_id with
    | some msg_id => .ok (b.block_index, b.account_id, msg_id)
    | none => .error (b.block_index, b.account_id,
        .TelegramUpload "upload failed")

/-- The planned blocks whose upload is actually attempted: both guards
of the task body passed. -/
def uploadAttempts (statuses : Nat → AccountStatus) (backends : Nat)
    (plan : List PlannedBlock) : List PlannedBlock :=
  plan.filter (fun b =>
    !decide (statuses b.account_id = AccountStatus.Unavailable) &&
      decide (b.account_id < backends))

/-- Result collection (pool.rs:267-299): a success becomes a
`BlockLocation` with the message id and timestamp, a failure or skip one
with `message_id = None`. -/
def toLocation (τ : Nat) (r : Except (Nat × Nat × Error) (Nat × Nat × Nat)) :
    BlockLocation :=
  match r with
  | .ok (block_idx, account_id, msg_id) =>
    ⟨account_id, some msg_id, block_idx, some τ⟩
  | .error (block_idx, account_id, _) => ⟨account_id, none, block_idx, none⟩

/-- `is_ok` on a collected result. -/
def exceptIsOk {ε α : Type} (r : Except ε α) : Bool :=
  match r with
  | .ok _ => true
  | .error _ => false

/-- Key order of the final `sort_by_key(|b| (b.block_index, b.account_id))`. -/
def locLe (a b : BlockLocation) : Bool :=
  decide (a.block_index < b.block_index) ||
    (decide (a.block_index = b.block_index) &&
      decide (a.account_id ≤ b.account_id))

/-- Stable insertion into a sorted prefix. -/
def insertSorted (x : BlockLocation) : List BlockLocation → List BlockLocation
  | [] => [x]
  | y :: ys => if locLe y x then y :: insertSorted x ys else x :: y :: ys

/-- The stable `sort_by_key` on block locations. -/
def sortBlocks (l : List BlockLocation) : List BlockLocation :=
  l.foldl (fun acc x => insertSorted x acc) []

/-- `AccountPool::upload_stripe` (pool.rs:181-335).  `K` is
`config.erasure.data_chunks`, `backends` the pool size, `dc`/`pc`/`bs`
the stripe's data count, parity count and block size, `τ` the upload
timestamp. -/
def upload_stripe (K backends : Nat) (statuses : Nat → AccountStatus)
    (net : Nat → Nat → Option Nat) (dc pc bs τ : Nat)
    (plan : List PlannedBlock) : Except Error StripeInfo :=
  let results := plan.map (blockOutcome statuses backends net)
  let blocks := results.map (toLocation τ)
  let success_count := results.countP exceptIsOk
  if success_count < K then .error (.ErasureFailed success_count K)
  else .ok ⟨sortBlocks blocks, dc, pc, bs⟩

/-- Health snapshot for the C7 witness: account 2 is `Unavailable`. -/
def c7Statuses : Nat → AccountStatus :=
  fun a => if a = 2 then .Unavailable else .Healthy

/-- Remote store for the C7 witness: every attempted upload succeeds. -/
def c7Net : Nat → Nat → Option Nat :=
  fun block_idx _ => some (10 + block_idx)

/-- Three-block plan for the C7 witness, block i on account i. -/
def c7Plan : List PlannedBlock :=
  [⟨0, 0, [1]⟩, ⟨1, 1, [2]⟩, ⟨2, 2, [3]⟩]

/-! ## The erasure codec (`src/raid/erasure.rs`)

`Encoder::encode` prepends an 8-byte big-endian length header, pads to a
multiple of K, splits into K data shards and appends N−K parity shards
computed by the `reed_solomon_erasure` crate; `Encoder::decode` checks
the shard count, requires at least K present shards, reconstructs, joins
the K data shards, reads the header and trims.

The Reed-Solomon kernel itself (`ReedSolomon::encode` /
`ReedSolomon::reconstruct`) is the external crate, not code of this
repository; it is modelled from the spec ("any K available shards
reconstruct the plaintext shard set", spec §3 invariant 6 and §4.4): the
model stores the concatenation of the K data shards as the content of
each parity shard so that reconstruction from any K of the N shards is
an executable function — the byte-level parity contents are abstracted,
every property the claims test (shard count, reconstruction, failure on
fewer than K shards) is preserved. -/

/-- Rust's `chunks(s)` on a buffer of exactly `k * s` bytes: `k`
successive pieces of `s` bytes. -/
def splitShards : Nat → Nat → List Nat → List (List Nat)
  | 0, _, _ => []
  | k + 1, s, l => l.take s :: splitShards k s (l.drop s)

/-- Modelled from the spec: one parity shard of the Reed-Solomon kernel,
abstracted as the concatenation of the data shards (see the section
comment). -/
def rsParityShard (dataShards : List (List Nat)) : List Nat :=
  dataShards.flatten

/-- `all_some` collection of the data shards after reconstruction. -/
def allSome {α : Type} : List (Option α) → Option (List α)
  | [] => some []
  | none :: _ => none
  | some x :: rest => (allSome rest).map (x :: ·)

/-- Modelled from the spec: `ReedSolomon::reconstruct`, returning the K
data shards — from any present parity shard (which, in the model, holds
the concatenated data shards) or, failing that, from the data shards
themselves when all K are present. -/
def rsReconstructData (K : Nat) (shards : List (Option (List Nat))) :
    Option (List (List Nat)) :=
  match ((shards.drop K).filterMap id).head? with
  | some p => some (splitShards K (p.length / K) p)
  | none => allSome (shards.take K)

/-- `Encoder::shard_size` (erasure.rs:167-170):
`ceil((data_len + 8) / K)`. -/
def shard_size (K data_len : Nat) : Nat :=
  (data_len + 8 + K - 1) / K

/-- `Encoder::encode` (erasure.rs:61-92). -/
def encode (K N : Nat) (data : List Nat) : List (List Nat) :=
  let data_with_len := beBytes 8 data.length ++ data
  let s := shard_size K data.length
  let total := s * K
  let padded := data_with_len ++
    List.replicate (total - data_with_len.length) 0
  splitShards K s padded ++
    List.replicate (N - K) (rsParityShard (splitShards K s padded))

/-- `Encoder::can_reconstruct`'s available count (erasure.rs:175-178). -/
def countSome (shards : List (Option (List Nat))) : Nat :=
  shards.countP (fun s => s.isSome)

/-- The message of the not-enough-shards `Error::Internal`
(erasure.rs:113-118). -/
def notEnoughShardsMsg (need avail : Nat) : String :=
  "Not enough shards to reconstruct: need " ++ toString need ++
    ", have " ++ toString avail

/-- `Encoder::decode` (erasure.rs:104-163). -/
def decode (K N : Nat) (shards : List (Option (List Nat))) :
    Except Error (List Nat) :=
  if shards.length ≠ N then
    .error (.Internal ("Expected " ++ toString N ++ " shards, got " ++
      toString shards.length))
  else if countSome shards < K then
    .error (.Internal (notEnoughShardsMsg K (countSome shards)))
  else
    match rsReconstructData K shards with
    | none => .error (.Internal "Reed-Solomon reconstruction failed")
    | some dataShards =>
      let reconstructed := dataShards.flatten
      if reconstructed.length < 8 then
        .error (.Internal
          "Reconstructed data too short to contain length header")
      else
        let original_len := fromBe (reconstructed.take 8)
        if original_len > reconstructed.length - 8 then
          .error (.Internal ("Invalid original length " ++
            toString original_len ++ " exceeds available data " ++
            toString (reconstructed.length - 8)))
        else .ok ((reconstructed.drop 8).take original_len)

/-- Keep a shard at a `true` position, lose it at a `false` one. -/
def applyMask (mask : List Bool) (shards : List (List Nat)) :
    List (Option (List Nat)) :=
  List.zipWith (fun b x => if b then some x else none) mask shards

/-- The padded buffer `encode` splits: length header, data, zero pad to
`shard_size * K` bytes. -/
def paddedOf (K : Nat) (data : List Nat) : List Nat :=
  (beBytes 8 data.length ++ data) ++
    List.replicate (shard_size K data.length * K -
      (beBytes 8 data.length ++ data).length) 0

/-! ## Theorems -/

theorem beBytes_length (w n : Nat) : (beBytes w n).length = w := by
  induction w generalizing n with
  | zero => rfl
  | succ w ih => simp [beBytes, ih]

theorem fromBe_cons (b : Nat) (l : List Nat) :
    fromBe (b :: l) = fromBe l + b * 256 ^ l.length := by
  suffices h : ∀ (l : List Nat) (acc : Nat),
      l.foldl (fun acc b => acc * 256 + b) acc =
        l.foldl (fun acc b => acc * 256 + b) 0 + acc * 256 ^ l.length by
    simpa [fromBe] using h l b
  intro l
  induction l with
  | nil => intro acc; simp
  | cons x xs ih =>
    intro acc
    simp only [List.foldl_cons, List.length_cons]
    rw [ih (acc * 256 + x), ih (0 * 256 + x)]
    ring

theorem fromBe_beBytes (w n : Nat) : fromBe (beBytes w n) = n % 256 ^ w := by
  induction w generalizing n with
  | zero => simp [beBytes, fromBe, Nat.mod_one]
  | succ w ih =>
    rw [beBytes, fromBe_cons, ih, beBytes_length]
    have hsplit : n % 256 ^ (w + 1) = n % 256 ^ w + n / 256 ^ w % 256 * 256 ^ w := by
      have h1 : (256 : Nat) ^ (w + 1) = 256 ^ w * 256 := by ring
      rw [h1, Nat.mod_mul]
      ring
    omega

theorem fromBe_beBytes_of_lt {w n : Nat} (h : n < 256 ^ w) :
    fromBe (beBytes w n) = n := by
  rw [fromBe_beBytes, Nat.mod_eq_of_lt h]

theorem treeGet_treeRemove_self (t : ChunksTree) (id : String) :
    treeGet (treeRemove t id) id = none := by
  induction t with
  | nil => rfl
  | cons kv rest ih =>
    obtain ⟨k, v⟩ := kv
    by_cases h : k = id <;> simp [treeRemove, treeGet, h, ih]

theorem treeGet_treeRemove_ne (t : ChunksTree) (id id' : String) (h : id ≠ id') :
    treeGet (treeRemove t id) id' = treeGet t id' := by
  induction t with
  | nil => rfl
  | cons kv rest ih =>
    obtain ⟨k, v⟩ := kv
    by_cases hk : k = id
    · subst hk
      simp [treeRemove, treeGet, h, ih]
    · by_cases hk' : k = id' <;>
        simp [treeRemove, treeGet, hk, hk', Ne.symm h, ih]

theorem treeGet_treeInsert_self (t : ChunksTree) (id : String) (v : List Nat) :
    treeGet (treeInsert t id v) id = some v := by
  simp [treeInsert, treeGet]

theorem chunkRow_length (m c : Nat) : (chunkRow m c).length = 8 := by
  simp [chunkRow, beBytes_length]

theorem chunkRow_take (m c : Nat) : (chunkRow m c).take 4 = beBytes 4 m := by
  rw [chunkRow]
  exact List.take_left' (beBytes_length 4 m)

theorem chunkRow_drop_take (m c : Nat) :
    ((chunkRow m c).drop 4).take 4 = beBytes 4 c := by
  rw [chunkRow, List.drop_left' (beBytes_length 4 m),
    List.take_of_length_le (le_of_eq (beBytes_length 4 c))]

theorem fromBe_chunkRow_msg {m : Nat} (c : Nat) (hm : m < 2 ^ 32) :
    fromBe ((chunkRow m c).take 4) = m := by
  rw [chunkRow_take]
  exact fromBe_beBytes_of_lt (by norm_num at hm ⊢; omega)

theorem fromBe_chunkRow_count (m : Nat) {c : Nat} (hc : c < 2 ^ 32) :
    fromBe (((chunkRow m c).drop 4).take 4) = c := by
  rw [chunkRow_drop_take]
  exact fromBe_beBytes_of_lt (by norm_num at hc ⊢; omega)

theorem save_chunk_ref_existing_row (t : ChunksTree) (id : String)
    (m m' c : Nat) (hc : c < 2 ^ 32) (hlt : c + 1 < 2 ^ 32)
    (h : treeGet t id = some (chunkRow m' c)) :
    treeGet (save_chunk_ref t id m) id = some (chunkRow m (c + 1)) := by
  have hcount := fromBe_chunkRow_count m' hc
  simp only [save_chunk_ref, h, chunkRow_length, ge_iff_le, le_refl,
    if_true, hcount]
  rw [Nat.mod_eq_of_lt hlt]
  exact treeGet_treeInsert_self t id (chunkRow m (c + 1))

/-- **C2.** `save_chunk_ref` upserts the refcount row, creating it with
count 1 and the given message id when absent and incrementing the stored
count by 1 otherwise; `decrement_chunk_ref` removes the row and returns
the stored message id when the count is 1, and with a count greater
than 1 decrements it, keeps the row with the same message id, and
returns `none`. -/
theorem save_decrement_chunk_ref_spec (t : ChunksTree) (id : String)
    (m m' c : Nat) (hm' : m' < 2 ^ 32) (hc : c < 2 ^ 32) :
    (treeGet t id = none →
      treeGet (save_chunk_ref t id m) id = some (chunkRow m 1)) ∧
    (treeGet t id = some (chunkRow m' c) → c + 1 < 2 ^ 32 →
      treeGet (save_chunk_ref t id m) id = some (chunkRow m (c + 1))) ∧
    (treeGet t id = some (chunkRow m' 1) →
      decrement_chunk_ref t id = (treeRemove t id, some m') ∧
      treeGet (decrement_chunk_ref t id).1 id = none) ∧
    (treeGet t id = some (chunkRow m' c) → 2 ≤ c →
      decrement_chunk_ref t id = (treeInsert t id (chunkRow m' (c - 1)), none) ∧
      treeGet (decrement_chunk_ref t id).1 id = some (chunkRow m' (c - 1))) := by
  refine ⟨?_, ?_, ?_, ?_⟩
  · intro h
    simp [save_chunk_ref, h, chunkRow, treeGet_treeInsert_self]
  · intro h hlt
    have hcount := fromBe_chunkRow_count m' hc
    simp only [save_chunk_ref, h, chunkRow_length, ge_iff_le, le_refl,
      if_true, hcount]
    rw [Nat.mod_eq_of_lt hlt]
    exact treeGet_treeInsert_self t id (chunkRow m (c + 1))
  · intro h
    have hmsg := fromBe_chunkRow_msg (m := m') 1 hm'
    have hcount := fromBe_chunkRow_count m' (c := 1) (by norm_num)
    constructor
    · simp [decrement_chunk_ref, h, chunkRow_length, hmsg, hcount]
    · simp [decrement_chunk_ref, h, chunkRow_length, hmsg, hcount,
        treeGet_treeRemove_self]
  · intro h h2
    have hmsg := fromBe_chunkRow_msg (m := m') c hm'
    have hcount := fromBe_chunkRow_count m' hc
    have hnot : ¬ c ≤ 1 := by omega
    have hm2 : fromBe (beBytes 4 m') = m' :=
      fromBe_beBytes_of_lt (by norm_num at hm' ⊢; omega)
    have hc3 : fromBe (beBytes 4 c) = c :=
      fromBe_beBytes_of_lt (by norm_num at hc ⊢; omega)
    have hc2 : List.take 4 (beBytes 4 c) = beBytes 4 c :=
      List.take_of_length_le (le_of_eq (beBytes_length 4 c))
    constructor
    · simp [decrement_chunk_ref, h, beBytes_length, hm2, hc2, hc3, hnot,
        chunkRow]
    · simp [decrement_chunk_ref, h, beBytes_length, hm2, hc2, hc3, hnot,
        chunkRow, treeGet_treeInsert_self]

/-- Witness for C2 at a concrete tree: a fresh row is created with count 1,
incrementing a count-2 row gives count 3, decrementing a count-2 row keeps
the row at count 1, and decrementing a count-1 row removes it. -/
theorem save_decrement_chunk_ref_spec_witness :
    (treeGet ([] : ChunksTree) "c1" = none ∧
      treeGet (save_chunk_ref [] "c1" 7) "c1" = some (chunkRow 7 1)) ∧
    (treeGet [("c1", chunkRow 7 2)] "c1" = some (chunkRow 7 2) ∧
      treeGet (save_chunk_ref [("c1", chunkRow 7 2)] "c1" 7) "c1" =
        some (chunkRow 7 3)) ∧
    (decrement_chunk_ref [("c1", chunkRow 7 2)] "c1" =
      (treeInsert [("c1", chunkRow 7 2)] "c1" (chunkRow 7 1), none)) ∧
    (decrement_chunk_ref [("c1", chunkRow 7 1)] "c1" =
      (treeRemove [("c1", chunkRow 7 1)] "c1", some 7)) := by
  have h1 := save_decrement_chunk_ref_spec [] "c1" 7 7 2
    (by norm_num) (by norm_num)
  have h2 := save_decrement_chunk_ref_spec [("c1", chunkRow 7 2)] "c1" 7 7 2
    (by norm_num) (by norm_num)
  have h3 := save_decrement_chunk_ref_spec [("c1", chunkRow 7 1)] "c1" 7 7 2
    (by norm_num) (by norm_num)
  refine ⟨⟨by decide, h1.1 (by decide)⟩,
    ⟨by decide, h2.2.1 (by decide) (by norm_num)⟩,
    ?_, (h3.2.2.1 (by decide)).1⟩
  exact (h2.2.2.2 (by decide) (by norm_num)).1

/-- **C9.** `decrement_chunk_ref` on a chunk id with no row, or a row whose
stored value is shorter than 8 bytes, returns `(unchanged tree, none)`. -/
theorem decrement_chunk_ref_missing (t : ChunksTree) (id : String)
    (h : treeGet t id = none ∨ ∃ v, treeGet t id = some v ∧ v.length < 8) :
    decrement_chunk_ref t id = (t, none) := by
  rcases h with h | ⟨v, hv, hlen⟩
  · simp [decrement_chunk_ref, h]
  · have : ¬ v.length ≥ 8 := by omega
    simp [decrement_chunk_ref, hv, this]

/-- Witness for C9: a missing id and a 3-byte malformed row both leave the
tree unchanged and return `none`. -/
theorem decrement_chunk_ref_missing_witness :
    decrement_chunk_ref [("a", [1, 2, 3])] "b" = ([("a", [1, 2, 3])], none) ∧
    decrement_chunk_ref [("a", [1, 2, 3])] "a" = ([("a", [1, 2, 3])], none) :=
  ⟨decrement_chunk_ref_missing [("a", [1, 2, 3])] "b" (Or.inl (by decide)),
   decrement_chunk_ref_missing [("a", [1, 2, 3])] "a"
     (Or.inr ⟨[1, 2, 3], by decide, by norm_num⟩)⟩

theorem posLookup_posRemove_self {K : Type} [DecidableEq K] (k : K)
    (l : List (K × Nat)) : posLookup k (posRemove k l) = none := by
  induction l with
  | nil => rfl
  | cons p rest ih =>
    obtain ⟨k', g⟩ := p
    by_cases h : k' = k <;> simp [posRemove, posLookup, h, ih]

theorem posLookup_posRemove_ne {K : Type} [DecidableEq K] {k k' : K}
    (l : List (K × Nat)) (h : k' ≠ k) :
    posLookup k' (posRemove k l) = posLookup k' l := by
  induction l with
  | nil => rfl
  | cons p rest ih =>
    obtain ⟨k0, g⟩ := p
    by_cases h0 : k0 = k
    · subst h0
      simp [posRemove, posLookup, Ne.symm h, ih]
    · by_cases h1 : k0 = k' <;> simp [posRemove, posLookup, h0, h1, h, ih]

theorem posLookup_mem {K : Type} [DecidableEq K] {k : K} {g : Nat}
    {l : List (K × Nat)} (h : posLookup k l = some g) : (k, g) ∈ l := by
  induction l with
  | nil => exact Option.noConfusion h
  | cons p rest ih =>
    obtain ⟨k', g'⟩ := p
    rw [posLookup] at h
    by_cases h' : k' = k
    · rw [if_pos h'] at h
      injection h with h2
      subst h'
      subst h2
      exact List.mem_cons_self _ _
    · rw [if_neg h'] at h
      exact List.mem_cons_of_mem _ (ih h)

theorem popAux_cons_found {K : Type} [DecidableEq K] {k0 : K} {g0 : Nat}
    {pos rest : List (K × Nat)} (h : posLookup k0 pos = some g0) :
    popAux ((k0, g0) :: rest) pos = (some k0, (rest, posRemove k0 pos)) := by
  simp [popAux, h]

theorem popAux_cons_stale {K : Type} [DecidableEq K] {k0 : K} {g0 cg : Nat}
    {pos rest : List (K × Nat)} (h : posLookup k0 pos = some cg)
    (hne : g0 ≠ cg) : popAux ((k0, g0) :: rest) pos = popAux rest pos := by
  simp [popAux, h, hne]

theorem popAux_cons_dead {K : Type} [DecidableEq K] {k0 : K} {g0 : Nat}
    {pos rest : List (K × Nat)} (h : posLookup k0 pos = none) :
    popAux ((k0, g0) :: rest) pos = popAux rest pos := by
  simp [popAux, h]

theorem popAux_inv {K : Type} [DecidableEq K] (G : Nat) :
    ∀ (order pos : List (K × Nat)),
    order.Pairwise (fun a b => a.2 < b.2) →
    (∀ k g, posLookup k pos = some g → (k, g) ∈ order) →
    (∀ p ∈ order, p.2 ≤ G) →
    (popAux order pos).2.1.Pairwise (fun a b => a.2 < b.2) ∧
    (∀ k g, posLookup k (popAux order pos).2.2 = some g →
      (k, g) ∈ (popAux order pos).2.1) ∧
    (∀ p ∈ (popAux order pos).2.1, p.2 ≤ G) := by
  intro order
  induction order with
  | nil =>
    intro pos hchain hlive hbound
    exact ⟨List.Pairwise.nil, fun k g h => hlive k g h,
      fun p hp => absurd hp (List.not_mem_nil p)⟩
  | cons hd rest ih =>
    intro pos hchain hlive hbound
    obtain ⟨k0, g0⟩ := hd
    have hchain' := hchain.of_cons
    have hbound' : ∀ p ∈ rest, p.2 ≤ G := fun p hp =>
      hbound p (List.mem_cons_of_mem _ hp)
    match hcase : posLookup k0 pos with
    | some cg =>
      by_cases heq : g0 = cg
      · subst heq
        rw [popAux_cons_found hcase]
        refine ⟨hchain', ?_, hbound'⟩
        intro k g hg
        have hk : k ≠ k0 := by
          intro hkk
          subst hkk
          rw [posLookup_posRemove_self] at hg
          exact Option.noConfusion hg
        rw [posLookup_posRemove_ne _ hk] at hg
        have hmem := hlive k g hg
        rcases List.mem_cons.mp hmem with hhd | htl
        · exact absurd (congrArg Prod.fst hhd) hk
        · exact htl
      · rw [popAux_cons_stale hcase heq]
        refine ih pos hchain' ?_ hbound'
        intro k g hg
        have hmem := hlive k g hg
        rcases List.mem_cons.mp hmem with hhd | htl
        · exfalso
          have hk : k = k0 := congrArg Prod.fst hhd
          have hgg : g = g0 := congrArg Prod.snd hhd
          subst hk
          rw [hcase] at hg
          injection hg with hg2
          exact heq (hg2.trans hgg).symm
        · exact htl
    | none =>
      rw [popAux_cons_dead hcase]
      refine ih pos hchain' ?_ hbound'
      intro k g hg
      have hmem := hlive k g hg
      rcases List.mem_cons.mp hmem with hhd | htl
      · exfalso
        have hk : k = k0 := congrArg Prod.fst hhd
        subst hk
        rw [hcase] at hg
        exact Option.noConfusion hg
      · exact htl

theorem lruInsert_inv {K : Type} [DecidableEq K] {s : LruCache K}
    (hs : LruInv s) (k : K) : LruInv (s.insert k) := by
  refine ⟨?_, ?_, ?_⟩
  · rw [LruCache.insert]
    refine List.pairwise_append.mpr ⟨hs.chain, List.pairwise_singleton _ _, ?_⟩
    intro a ha b hb
    have hb' : b = (k, s.generation + 1) := List.mem_singleton.mp hb
    have := hs.bound a ha
    simp only [hb']
    omega
  · intro k' g' hg'
    rw [LruCache.insert] at hg' ⊢
    simp only [posInsert, posLookup] at hg'
    by_cases hk : k = k'
    · subst hk
      rw [if_pos rfl] at hg'
      injection hg' with h2
      subst h2
      simp
    · rw [if_neg hk, posLookup_posRemove_ne _ (Ne.symm hk)] at hg'
      exact List.mem_append_left _ (hs.live k' g' hg')
  · intro p hp
    rw [LruCache.insert] at hp
    rcases List.mem_append.mp hp with h | h
    · have := hs.bound p h
      rw [LruCache.insert]
      simp only
      omega
    · have hp' : p = (k, s.generation + 1) := List.mem_singleton.mp h
      simp [LruCache.insert, hp']

theorem lruStep_inv {K : Type} [DecidableEq K] {s : LruCache K}
    (hs : LruInv s) (op : LruOp K) : LruInv (lruStep s op) := by
  cases op with
  | insert k => exact lruInsert_inv hs k
  | touch k =>
    rw [lruStep, LruCache.touch]
    by_cases h : (posLookup k s.positions).isSome
    · rw [if_pos h]
      exact lruInsert_inv hs k
    · rw [if_neg h]
      exact hs
  | remove k =>
    refine ⟨hs.chain, ?_, hs.bound⟩
    intro k' g' hg'
    rw [lruStep, LruCache.remove] at hg'
    simp only at hg'
    have hk : k' ≠ k := by
      intro hkk
      subst hkk
      rw [posLookup_posRemove_self] at hg'
      exact Option.noConfusion hg'
    rw [posLookup_posRemove_ne _ hk] at hg'
    exact hs.live k' g' hg'
  | pop =>
    have h := popAux_inv s.generation s.order s.positions hs.chain hs.live
      hs.bound
    exact ⟨h.1, h.2.1, h.2.2⟩

theorem lruRun_inv {K : Type} [DecidableEq K] (ops : List (LruOp K)) :
    LruInv (lruRun ops) := by
  suffices h : ∀ (s : LruCache K), LruInv s → LruInv (ops.foldl lruStep s) from
    h LruCache.new ⟨List.Pairwise.nil,
      fun k g hkg => Option.noConfusion hkg,
      fun p hp => absurd hp (List.not_mem_nil p)⟩
  induction ops with
  | nil => intro s hs; exact hs
  | cons op rest ih =>
    intro s hs
    exact ih (lruStep s op) (lruStep_inv hs op)

theorem popAux_empty_pos {K : Type} [DecidableEq K] :
    ∀ order : List (K × Nat), (popAux order ([] : List (K × Nat))).1 = none := by
  intro order
  induction order with
  | nil => rfl
  | cons hd rest ih =>
    obtain ⟨k0, g0⟩ := hd
    rw [popAux_cons_dead
      (show posLookup k0 ([] : List (K × Nat)) = none from rfl)]
    exact ih

theorem popAux_min {K : Type} [DecidableEq K] {k : K} {g : Nat} :
    ∀ (order pos : List (K × Nat)),
    order.Pairwise (fun a b => a.2 < b.2) →
    (∀ k' g', posLookup k' pos = some g' → (k', g') ∈ order) →
    posLookup k pos = some g →
    (∀ p ∈ pos, g ≤ p.2) →
    (popAux order pos).1 = some k := by
  intro order
  induction order with
  | nil =>
    intro pos _ hlive hk _
    exact absurd (hlive k g hk) (List.not_mem_nil _)
  | cons hd rest ih =>
    intro pos hchain hlive hk hmin
    obtain ⟨k0, g0⟩ := hd
    obtain ⟨hrel, hchain'⟩ := List.pairwise_cons.mp hchain
    match hcase : posLookup k0 pos with
    | some cg =>
      by_cases heq : g0 = cg
      · subst heq
        rw [popAux_cons_found hcase]
        by_cases hkk : k = k0
        · rw [hkk]
        · exfalso
          have hmem := hlive k g hk
          rcases List.mem_cons.mp hmem with hhd | htl
          · exact hkk (congrArg Prod.fst hhd)
          · have h1 : g0 < g := hrel (k, g) htl
            have h2 : g ≤ g0 := hmin (k0, g0) (posLookup_mem hcase)
            omega
      · rw [popAux_cons_stale hcase heq]
        refine ih pos hchain' ?_ hk hmin
        intro k' g' hg'
        rcases List.mem_cons.mp (hlive k' g' hg') with hhd | htl
        · exfalso
          have hk1 : k' = k0 := congrArg Prod.fst hhd
          have hg1 : g' = g0 := congrArg Prod.snd hhd
          subst hk1
          rw [hcase] at hg'
          injection hg' with hg2
          exact heq (hg2.trans hg1).symm
        · exact htl
    | none =>
      rw [popAux_cons_dead hcase]
      refine ih pos hchain' ?_ hk hmin
      intro k' g' hg'
      rcases List.mem_cons.mp (hlive k' g' hg') with hhd | htl
      · exfalso
        have hk1 : k' = k0 := congrArg Prod.fst hhd
        subst hk1
        rw [hcase] at hg'
        exact Option.noConfusion hg'
      · exact htl

/-- **C5.** After any finite interleaving of insert/touch/remove/pop
operations on the LRU tracker, `pop_oldest` on an empty tracker returns
`none`, and otherwise returns the tracked key whose current (most recent
insert/touch) generation is least among all tracked keys — stale `order`
entries are skipped. -/
theorem lru_pop_oldest_correct {K : Type} [DecidableEq K]
    (ops : List (LruOp K)) (k : K) (g : Nat) :
    ((lruRun ops).positions = [] → ((lruRun ops).popOldest).1 = none) ∧
    (posLookup k (lruRun ops).positions = some g →
      (∀ p ∈ (lruRun ops).positions, g ≤ p.2) →
      ((lruRun ops).popOldest).1 = some k) := by
  have hinv := lruRun_inv ops
  constructor
  · intro hempty
    rw [LruCache.popOldest]
    simp only [hempty]
    exact popAux_empty_pos _
  · intro hk hmin
    rw [LruCache.popOldest]
    exact popAux_min _ _ hinv.chain hinv.live hk hmin

/-- Witness for C5: with inserts of 1, 2, 3, then touch of 1 and removal
of 3, the oldest tracked key is 2; after inserting one key and popping
it, the tracker is empty and pop yields `none`. -/
theorem lru_pop_oldest_correct_witness :
    ((lruRun [LruOp.insert 1, LruOp.insert 2, LruOp.insert 3,
        LruOp.touch 1, LruOp.remove 3]).popOldest).1 = some 2 ∧
    ((lruRun [LruOp.insert (1 : Nat), LruOp.pop]).popOldest).1 = none :=
  ⟨(lru_pop_oldest_correct [LruOp.insert 1, LruOp.insert 2, LruOp.insert 3,
      LruOp.touch 1, LruOp.remove 3] 2 2).2 (by decide) (by decide),
   (lru_pop_oldest_correct [LruOp.insert (1 : Nat), LruOp.pop] 1 0).1
     (by decide)⟩

/-- **C10.** `touch` on a key that is not currently tracked is a no-op:
the state is unchanged, so the tracked key set and every subsequent
`pop_oldest` are exactly as if `touch` had not been called. -/
theorem lru_touch_untracked {K : Type} [DecidableEq K] (s : LruCache K)
    (k : K) (h : posLookup k s.positions = none) :
    s.touch k = s ∧ (s.touch k).positions = s.positions ∧
      (s.touch k).popOldest = s.popOldest := by
  have ht : s.touch k = s := by
    rw [LruCache.touch, h]
    simp
  exact ⟨ht, by rw [ht], by rw [ht]⟩

/-- Witness for C10: touching the untracked key 5 leaves a tracker holding
only key 1 unchanged. -/
theorem lru_touch_untracked_witness :
    (lruRun [LruOp.insert (1 : Nat)]).touch 5 = lruRun [LruOp.insert 1] ∧
    ((lruRun [LruOp.insert (1 : Nat)]).touch 5).positions =
      (lruRun [LruOp.insert 1]).positions ∧
    ((lruRun [LruOp.insert (1 : Nat)]).touch 5).popOldest =
      (lruRun [LruOp.insert 1]).popOldest :=
  lru_touch_untracked (lruRun [LruOp.insert 1]) 5 (by decide)

/-- **C6 (failing input).** The claim says `current_size` never exceeds
`max_size` after any sequence of puts whose sizes are each at most
`max_size`.  Putting 50 then 30 bytes under the same chunk id and then
60 bytes under another id (all ≤ 100) leaves `current_size = 110 > 100`:
`put` adds the new length without subtracting the overwritten entry's
old length, so the tracked size leaks on duplicate puts. -/
theorem chunk_cache_put_overflows_max :
    (∀ p ∈ c6FailingPuts, p.2.length ≤ 100) ∧
    (runPuts (ChunkCache.empty 100) c6FailingPuts).toOption.map
      (fun c => (c.current_size, c.max_size)) = some (110, 100) := by
  constructor
  · decide
  · decide

/-- **C3.** When a chunk id already has a refcount row, the write path
uploads nothing for it: it calls `save_chunk_ref` with the existing
message id (incrementing the stored count) and records that existing
message id in the manifest entry; only an id with no row is uploaded. -/
theorem write_dedup_no_reupload (tree : ChunksTree) (chunk_id : String)
    (fresh m c : Nat) (hm : m < 2 ^ 32) (hc : c + 1 < 2 ^ 32) :
    (get_chunk_ref tree chunk_id = some m →
      writeChunkStep tree chunk_id fresh =
        ⟨save_chunk_ref tree chunk_id m, [], m⟩) ∧
    (treeGet tree chunk_id = some (chunkRow m c) →
      (writeChunkStep tree chunk_id fresh).uploaded = [] ∧
      (writeChunkStep tree chunk_id fresh).entry_message_id = m ∧
      treeGet (writeChunkStep tree chunk_id fresh).tree chunk_id =
        some (chunkRow m (c + 1))) ∧
    (get_chunk_ref tree chunk_id = none →
      writeChunkStep tree chunk_id fresh =
        ⟨save_chunk_ref tree chunk_id fresh, [chunk_id], fresh⟩) := by
  refine ⟨?_, ?_, ?_⟩
  · intro h
    rw [writeChunkStep, h]
  · intro h
    have hget : get_chunk_ref tree chunk_id = some m := by
      simp only [get_chunk_ref, h]
      rw [if_pos (by rw [chunkRow_length]; omega), fromBe_chunkRow_msg c hm]
    have hrow := save_chunk_ref_existing_row tree chunk_id m m c
      (by omega) hc h
    rw [writeChunkStep, hget]
    exact ⟨rfl, rfl, hrow⟩
  · intro h
    rw [writeChunkStep, h]

/-- Witness for C3: with a stored row for "c1" (message id 9, count 1),
the step uploads nothing, reuses message id 9 and bumps the count to 2;
with no row for "c2", the step uploads exactly that chunk. -/
theorem write_dedup_no_reupload_witness :
    (writeChunkStep [("c1", chunkRow 9 1)] "c1" 42 =
      ⟨save_chunk_ref [("c1", chunkRow 9 1)] "c1" 9, [], 9⟩) ∧
    treeGet (writeChunkStep [("c1", chunkRow 9 1)] "c1" 42).tree "c1" =
      some (chunkRow 9 2) ∧
    (writeChunkStep ([] : ChunksTree) "c2" 42 =
      ⟨save_chunk_ref [] "c2" 42, ["c2"], 42⟩) :=
  have h1 := write_dedup_no_reupload [("c1", chunkRow 9 1)] "c1" 42 9 1
    (by norm_num) (by norm_num)
  have h2 := write_dedup_no_reupload ([] : ChunksTree) "c2" 42 9 1
    (by norm_num) (by norm_num)
  ⟨h1.1 (by decide), (h1.2.1 (by decide)).2.2, h2.2.2 (by decide)⟩

/-- **C4 (counterexample).** The claim says the AAD passed to the AEAD is
the chunk's id.  At chunk id "ab" the write path's encrypt call and the
read path's decrypt call both pass the empty AAD, not the id's bytes. -/
theorem chunk_aead_aad_is_not_chunk_id :
    ¬ ((writeChunkEncryptCall "ab").aad = strBytes "ab" ∧
       (readChunkDecryptCall "ab").aad = strBytes "ab") := by
  intro h
  have := h.1
  simp [writeChunkEncryptCall, strBytes] at this

/-- **C4 (amended).** Both the write path's encrypt call and the read
path's decrypt call pass the empty AAD; the ciphertext is bound to the
chunk id only through the per-chunk key, whose HKDF derivation label is
`"tgcryptfs-chunk-v1:" ++ chunk_id`. -/
theorem chunk_aead_aad_empty (chunk_id : String) :
    (writeChunkEncryptCall chunk_id).aad = [] ∧
    (readChunkDecryptCall chunk_id).aad = [] ∧
    (writeChunkEncryptCall chunk_id).key_label =
      "tgcryptfs-chunk-v1:" ++ chunk_id ∧
    (readChunkDecryptCall chunk_id).key_label =
      "tgcryptfs-chunk-v1:" ++ chunk_id :=
  ⟨rfl, rfl, rfl, rfl⟩

/-- **C8 (code evaluation).** Truncating a file inode to size 0 replaces
the manifest with an empty one tagged `version + 1` and sets the size
to 0, but leaves the inode's `version` counter unchanged — unlike a
completed write, which bumps it by 1. -/
theorem setattr_truncate_keeps_version (i : Inode) (h : i.is_file = true) :
    (setattrSize i 0).version = i.version ∧
    (setattrSize i 0).size = 0 ∧
    (setattrSize i 0).manifest = some (ChunkManifest.new (i.version + 1)) ∧
    (∀ m len, (writeUpdateInode i m len).version = i.version + 1) := by
  refine ⟨?_, ?_, ?_, fun m len => rfl⟩
  · simp [setattrSize, Inode.set_size, h]
  · simp [setattrSize, Inode.set_size, h]
  · simp [setattrSize, Inode.set_size, h]

/-- Witness for C8: a file inode at version 5 truncated to 0 stays at
version 5 with an empty manifest tagged 6, while a write moves it to
version 6. -/
theorem setattr_truncate_keeps_version_witness :
    (setattrSize ⟨2, FileType.file, 100, 5, none⟩ 0).version = 5 ∧
    (setattrSize ⟨2, FileType.file, 100, 5, none⟩ 0).size = 0 ∧
    (setattrSize ⟨2, FileType.file, 100, 5, none⟩ 0).manifest =
      some (ChunkManifest.new 6) ∧
    (writeUpdateInode ⟨2, FileType.file, 100, 5, none⟩
      (ChunkManifest.new 6) 0).version = 6 :=
  have h := setattr_truncate_keeps_version ⟨2, FileType.file, 100, 5, none⟩
    (by decide)
  ⟨h.1, h.2.1, h.2.2.1, h.2.2.2 (ChunkManifest.new 6) 0⟩

theorem insertSorted_perm (x : BlockLocation) (l : List BlockLocation) :
    (insertSorted x l).Perm (x :: l) := by
  induction l with
  | nil => exact List.Perm.refl _
  | cons y ys ih =>
    rw [insertSorted]
    by_cases h : locLe y x = true
    · rw [if_pos h]
      exact (ih.cons y).trans (List.Perm.swap x y ys)
    · rw [if_neg h]

theorem sortBlocks_perm (l : List BlockLocation) : (sortBlocks l).Perm l := by
  suffices h : ∀ (l acc : List BlockLocation),
      (l.foldl (fun acc x => insertSorted x acc) acc).Perm (acc ++ l) by
    simpa using h l []
  intro l
  induction l with
  | nil => intro acc; simp
  | cons x xs ih =>
    intro acc
    rw [List.foldl_cons]
    refine (ih (insertSorted x acc)).trans ?_
    have h1 : (insertSorted x acc ++ xs).Perm ((x :: acc) ++ xs) :=
      (insertSorted_perm x acc).append_right xs
    refine h1.trans ?_
    exact List.perm_middle.symm

theorem toLocation_of_not_ok (statuses : Nat → AccountStatus)
    (backends : Nat) (net : Nat → Nat → Option Nat) (τ : Nat)
    (b : PlannedBlock)
    (h : exceptIsOk (blockOutcome statuses backends net b) = false) :
    toLocation τ (blockOutcome statuses backends net b) =
      ⟨b.account_id, none, b.block_index, none⟩ := by
  rw [blockOutcome] at h ⊢
  by_cases h1 : statuses b.account_id = AccountStatus.Unavailable
  · rw [if_pos h1]
    rfl
  · rw [if_neg h1] at h ⊢
    by_cases h2 : backends ≤ b.account_id
    · rw [if_pos h2]
      rfl
    · rw [if_neg h2] at h ⊢
      match hnet : net b.block_index b.account_id with
      | some msg_id =>
        rw [hnet] at h
        simp [exceptIsOk] at h
      | none => rfl

/-- **C7.** For every stripe upload: blocks on `Unavailable` accounts are
not uploaded; the call returns `Ok` with a `StripeInfo` exactly when at
least K block uploads succeed, and otherwise `ErasureFailed` with the
success and required counts; the `StripeInfo` holds one `BlockLocation`
per planned block (so `blocks.len() = N` for an N-block plan), with
`message_id = None` for every failed or skipped block. -/
theorem upload_stripe_spec (K backends : Nat) (statuses : Nat → AccountStatus)
    (net : Nat → Nat → Option Nat) (dc pc bs τ N : Nat)
    (plan : List PlannedBlock) (hN : plan.length = N) :
    (∀ b ∈ plan, statuses b.account_id = .Unavailable →
      b ∉ uploadAttempts statuses backends plan) ∧
    (K ≤ (plan.map (blockOutcome statuses backends net)).countP exceptIsOk →
      ∃ info, upload_stripe K backends statuses net dc pc bs τ plan =
          .ok info ∧
        info.blocks.length = N ∧
        info.blocks.Perm (plan.map
          (fun b => toLocation τ (blockOutcome statuses backends net b))) ∧
        (∀ b ∈ plan,
          exceptIsOk (blockOutcome statuses backends net b) = false →
          (⟨b.account_id, none, b.block_index, none⟩ : BlockLocation) ∈
            info.blocks)) ∧
    ((plan.map (blockOutcome statuses backends net)).countP exceptIsOk < K →
      upload_stripe K backends statuses net dc pc bs τ plan =
        .error (.ErasureFailed
          ((plan.map (blockOutcome statuses backends net)).countP exceptIsOk)
          K)) := by
  refine ⟨?_, ?_, ?_⟩
  · intro b _ hst hmem
    rw [uploadAttempts, List.mem_filter] at hmem
    simp [hst] at hmem
  · intro hK
    have hnot : ¬ (plan.map (blockOutcome statuses backends net)).countP
        exceptIsOk < K := not_lt.mpr hK
    have hperm : (sortBlocks ((plan.map
        (blockOutcome statuses backends net)).map (toLocation τ))).Perm
        (plan.map (fun b => toLocation τ (blockOutcome statuses backends net b))) := by
      refine (sortBlocks_perm _).trans ?_
      rw [List.map_map]
      exact List.Perm.refl _
    refine ⟨⟨sortBlocks ((plan.map
      (blockOutcome statuses backends net)).map (toLocation τ)), dc, pc, bs⟩,
      ?_, ?_, hperm, ?_⟩
    · rw [upload_stripe]
      simp only [hnot, if_false]
    · rw [hperm.length_eq, List.length_map, hN]
    · intro b hb hfail
      have hmem : toLocation τ (blockOutcome statuses backends net b) ∈
          plan.map (fun b => toLocation τ (blockOutcome statuses backends net b)) :=
        List.mem_map_of_mem _ hb
      rw [toLocation_of_not_ok statuses backends net τ b hfail] at hmem
      exact hperm.mem_iff.mpr hmem
  · intro hlt
    rw [upload_stripe]
    simp only [hlt, if_true]

/-- Witness for C7: with K = 2, N = 3 and account 2 `Unavailable`, the
block planned for account 2 is not attempted, the upload still returns
`Ok` with 3 block locations of which the skipped one has no message id
(degraded success); with K = 3 the same stripe fails with
`ErasureFailed 2 3`. -/
theorem upload_stripe_spec_witness :
    ((⟨2, 2, [3]⟩ : PlannedBlock) ∉ uploadAttempts c7Statuses 3 c7Plan) ∧
    (∃ info, upload_stripe 2 3 c7Statuses c7Net 2 1 1 7 c7Plan = .ok info ∧
      info.blocks.length = 3 ∧
      (⟨2, none, 2, none⟩ : BlockLocation) ∈ info.blocks) ∧
    (upload_stripe 3 3 c7Statuses c7Net 2 1 1 7 c7Plan =
      .error (.ErasureFailed 2 3)) := by
  have h := upload_stripe_spec 2 3 c7Statuses c7Net 2 1 1 7 3 c7Plan rfl
  have h3 := upload_stripe_spec 3 3 c7Statuses c7Net 2 1 1 7 3 c7Plan rfl
  refine ⟨h.1 ⟨2, 2, [3]⟩ (by decide) (by decide), ?_, ?_⟩
  · obtain ⟨info, hok, hlen, _, hmem⟩ := h.2.1 (by decide)
    exact ⟨info, hok, hlen, hmem ⟨2, 2, [3]⟩ (by decide) (by decide)⟩
  · exact h3.2.2 (by decide)

theorem splitShards_length (k s : Nat) (l : List Nat) :
    (splitShards k s l).length = k := by
  induction k generalizing l with
  | zero => rfl
  | succ k ih => simp [splitShards, ih]

theorem splitShards_flatten {k s : Nat} :
    ∀ {l : List Nat}, l.length = k * s → (splitShards k s l).flatten = l := by
  induction k with
  | zero =>
    intro l hl
    rw [Nat.zero_mul] at hl
    rw [List.eq_nil_of_length_eq_zero hl]
    rfl
  | succ k ih =>
    intro l hl
    have hdrop : (l.drop s).length = k * s := by
      rw [List.length_drop, hl]
      ring_nf
      omega
    rw [splitShards, List.flatten_cons, ih hdrop, List.take_append_drop]

theorem le_ceil_mul (a K : Nat) (hK : 0 < K) : a ≤ (a + K - 1) / K * K := by
  rw [Nat.mul_comm]
  have h := Nat.div_add_mod (a + K - 1) K
  have hr : (a + K - 1) % K < K := Nat.mod_lt _ hK
  set q := (a + K - 1) / K with hq
  set r := (a + K - 1) % K with hrdef
  set m := K * q with hm
  omega

theorem applyMask_length (mask : List Bool) (l : List (List Nat)) :
    (applyMask mask l).length = min mask.length l.length := by
  rw [applyMask, List.length_zipWith]

theorem applyMask_take (n : Nat) :
    ∀ (mask : List Bool) (l : List (List Nat)),
    (applyMask mask l).take n = applyMask (mask.take n) (l.take n) := by
  induction n with
  | zero => intro mask l; rfl
  | succ n ih =>
    intro mask l
    match mask, l with
    | [], _ => rfl
    | _ :: _, [] => rfl
    | b :: bs, x :: xs =>
      simp only [applyMask, List.zipWith_cons_cons, List.take_succ_cons]
      rw [← applyMask, ← applyMask, ih bs xs]

theorem applyMask_drop (n : Nat) :
    ∀ (mask : List Bool) (l : List (List Nat)),
    (applyMask mask l).drop n = applyMask (mask.drop n) (l.drop n) := by
  induction n with
  | zero => intro mask l; rfl
  | succ n ih =>
    intro mask l
    match mask, l with
    | [], _ => rfl
    | _ :: _, [] => simp [applyMask]
    | b :: bs, x :: xs =>
      simp only [applyMask, List.zipWith_cons_cons, List.drop_succ_cons]
      rw [← applyMask, ih bs xs]
      rfl

theorem mem_filterMap_applyMask {x : List Nat} :
    ∀ {mask : List Bool} {l : List (List Nat)},
    x ∈ (applyMask mask l).filterMap id → x ∈ l := by
  intro mask
  induction mask with
  | nil => intro l h; simp [applyMask] at h
  | cons b bs ih =>
    intro l h
    match l with
    | [] => simp [applyMask] at h
    | y :: ys =>
      simp only [applyMask, List.zipWith_cons_cons, List.filterMap_cons] at h
      by_cases hb : b = true
      · rw [hb, if_pos rfl] at h
        simp only [id] at h
        rcases List.mem_cons.mp h with h1 | h1
        · exact h1 ▸ List.mem_cons_self _ _
        · exact List.mem_cons_of_mem _ (ih h1)
      · rw [Bool.not_eq_true] at hb
        rw [hb] at h
        simp only [Bool.false_eq_true, if_false, id] at h
        exact List.mem_cons_of_mem _ (ih h)

theorem allSome_applyMask :
    ∀ (mask : List Bool) (l : List (List Nat)),
    mask.length = l.length →
    (∀ x ∈ applyMask mask l, x.isSome) →
    allSome (applyMask mask l) = some l := by
  intro mask
  induction mask with
  | nil =>
    intro l hlen _
    rw [List.eq_nil_of_length_eq_zero hlen.symm]
    rfl
  | cons b bs ih =>
    intro l hlen hall
    match l with
    | [] => exact absurd hlen (by simp)
    | y :: ys =>
      have hb : b = true := by
        have := hall (if b then some y else none)
          (by rw [applyMask, List.zipWith_cons_cons]; exact List.mem_cons_self _ _)
        by_cases hbb : b = true
        · exact hbb
        · rw [Bool.not_eq_true] at hbb
          rw [hbb] at this
          simp at this
      subst hb
      simp only [applyMask, List.zipWith_cons_cons, eq_self_iff_true,
        if_true] at hall ⊢
      have hcons : ∀ (r : List (Option (List Nat))),
          allSome (some y :: r) = (allSome r).map (y :: ·) := fun r => rfl
      rw [hcons]
      have hys : allSome (applyMask bs ys) = some ys := by
        refine ih ys (by simpa using hlen) ?_
        intro x hx
        exact hall x (List.mem_cons_of_mem _ hx)
      rw [← applyMask, hys]
      rfl

theorem countSome_applyMask_split (K : Nat)
    (shards : List (Option (List Nat))) :
    countSome shards =
      countSome (shards.take K) + countSome (shards.drop K) := by
  rw [countSome, countSome, countSome, ← List.countP_append,
    List.take_append_drop]

theorem encode_eq (K N : Nat) (data : List Nat) :
    encode K N data =
      splitShards K (shard_size K data.length) (paddedOf K data) ++
        List.replicate (N - K)
          (rsParityShard
            (splitShards K (shard_size K data.length) (paddedOf K data))) :=
  rfl

theorem paddedOf_length (K : Nat) (data : List Nat) (hK : 1 ≤ K) :
    (paddedOf K data).length = shard_size K data.length * K := by
  have hceil := le_ceil_mul (data.length + 8) K hK
  rw [paddedOf, List.length_append, List.length_append, beBytes_length,
    List.length_replicate, shard_size] at *
  omega

theorem paddedOf_assoc (K : Nat) (data : List Nat) :
    paddedOf K data = beBytes 8 data.length ++
      (data ++ List.replicate
        (shard_size K data.length * K - (8 + data.length)) 0) := by
  rw [paddedOf, List.append_assoc, List.length_append, beBytes_length]

theorem paddedOf_flatten (K : Nat) (data : List Nat) (hK : 1 ≤ K) :
    (splitShards K (shard_size K data.length) (paddedOf K data)).flatten =
      paddedOf K data :=
  splitShards_flatten (by rw [paddedOf_length K data hK, Nat.mul_comm])

theorem encode_closed (K N : Nat) (data : List Nat) (hK : 1 ≤ K) :
    encode K N data =
      splitShards K (shard_size K data.length) (paddedOf K data) ++
        List.replicate (N - K) (paddedOf K data) := by
  rw [encode_eq, rsParityShard, paddedOf_flatten K data hK]

theorem encode_length (K N : Nat) (data : List Nat) (hK : 1 ≤ K)
    (hKN : K ≤ N) : (encode K N data).length = N := by
  rw [encode_closed K N data hK, List.length_append, splitShards_length,
    List.length_replicate]
  omega

theorem rsReconstructData_applyMask (K S NK : Nat) (P : List Nat)
    (mask : List Bool) (hK : 1 ≤ K) (hPlen : P.length = S * K)
    (hmaskLen : mask.length = K + NK)
    (hcnt : K ≤ countSome
      (applyMask mask (splitShards K S P ++ List.replicate NK P))) :
    rsReconstructData K
        (applyMask mask (splitShards K S P ++ List.replicate NK P)) =
      some (splitShards K S P) := by
  have hdsLen := splitShards_length K S P
  have hdropMask :
      (applyMask mask (splitShards K S P ++ List.replicate NK P)).drop K =
        applyMask (mask.drop K) (List.replicate NK P) := by
    rw [applyMask_drop]
    congr 1
    exact List.drop_left' hdsLen
  cases hhead : (((applyMask mask
      (splitShards K S P ++ List.replicate NK P)).drop K).filterMap
        id).head? with
  | some p =>
    simp only [rsReconstructData, hhead]
    have hp1 : p ∈ ((applyMask mask
        (splitShards K S P ++ List.replicate NK P)).drop K).filterMap id :=
      List.mem_of_mem_head? (by simp [hhead])
    rw [hdropMask] at hp1
    have hpP : p = P :=
      List.eq_of_mem_replicate (mem_filterMap_applyMask hp1)
    rw [hpP, hPlen, Nat.mul_div_cancel _ (by omega : 0 < K)]
  | none =>
    simp only [rsReconstructData, hhead]
    have hfm : ((applyMask mask
        (splitShards K S P ++ List.replicate NK P)).drop K).filterMap id =
        [] := List.head?_eq_none_iff.mp hhead
    have hdrop0 : countSome ((applyMask mask
        (splitShards K S P ++ List.replicate NK P)).drop K) = 0 := by
      rw [countSome, List.countP_eq_zero]
      intro a ha
      have := (List.filterMap_eq_nil_iff.mp hfm) a ha
      simp only [id] at this
      rw [this]
      simp
    have hsplitc := countSome_applyMask_split K
      (applyMask mask (splitShards K S P ++ List.replicate NK P))
    have htake : K ≤ countSome ((applyMask mask
        (splitShards K S P ++ List.replicate NK P)).take K) := by omega
    have htakeMask :
        (applyMask mask (splitShards K S P ++ List.replicate NK P)).take K =
          applyMask (mask.take K) (splitShards K S P) := by
      rw [applyMask_take]
      congr 1
      exact List.take_left' hdsLen
    have hmtlen : (mask.take K).length = K := by
      rw [List.length_take, hmaskLen]
      omega
    have htklen : (applyMask (mask.take K) (splitShards K S P)).length = K := by
      rw [applyMask_length, hmtlen, hdsLen]
      omega
    have hcntle := List.countP_le_length
      (fun s => s.isSome) (l := applyMask (mask.take K) (splitShards K S P))
    have heq : countSome (applyMask (mask.take K) (splitShards K S P)) =
        (applyMask (mask.take K) (splitShards K S P)).length := by
      rw [htakeMask] at htake
      rw [htklen]
      rw [countSome] at htake ⊢
      omega
    have hAll : ∀ a ∈ applyMask (mask.take K) (splitShards K S P),
        a.isSome := by
      rw [countSome] at heq
      exact List.countP_eq_length.mp heq
    rw [htakeMask]
    exact allSome_applyMask (mask.take K) (splitShards K S P)
      (by rw [hmtlen, hdsLen]) hAll

theorem paddedOf_length_ge (K : Nat) (data : List Nat) (hK : 1 ≤ K) :
    8 + data.length ≤ (paddedOf K data).length := by
  have hceil := le_ceil_mul (data.length + 8) K hK
  rw [paddedOf_length K data hK, shard_size]
  omega

/-- **C1.** For every valid configuration (1 ≤ K < N) and every byte
string, `encode` yields N shards; `decode` of any masked shard vector
with at least K present shards returns exactly the original bytes, and
with fewer than K present shards fails with the not-enough-shards
`Error::Internal` carrying the required and available counts. -/
theorem erasure_encode_decode (K N : Nat) (data : List Nat)
    (mask : List Bool) (hK : 1 ≤ K) (hKN : K < N)
    (hlen : data.length < 2 ^ 64) (hmask : mask.length = N) :
    (encode K N data).length = N ∧
    (K ≤ countSome (applyMask mask (encode K N data)) →
      decode K N (applyMask mask (encode K N data)) = .ok data) ∧
    (countSome (applyMask mask (encode K N data)) < K →
      decode K N (applyMask mask (encode K N data)) =
        .error (.Internal (notEnoughShardsMsg K
          (countSome (applyMask mask (encode K N data)))))) := by
  have hEncLen := encode_length K N data hK (le_of_lt hKN)
  have hMaskedLen : (applyMask mask (encode K N data)).length = N := by
    rw [applyMask_length, hmask, hEncLen]
    omega
  refine ⟨hEncLen, ?_, ?_⟩
  · intro hcnt
    have hrec : rsReconstructData K (applyMask mask (encode K N data)) =
        some (splitShards K (shard_size K data.length) (paddedOf K data)) := by
      have h1 := rsReconstructData_applyMask K (shard_size K data.length)
        (N - K) (paddedOf K data) mask hK
        (paddedOf_length K data hK)
        (by rw [hmask]; omega)
        (by rw [← encode_closed K N data hK]; exact hcnt)
      rw [encode_closed K N data hK]
      exact h1
    have hPge := paddedOf_length_ge K data hK
    have htake8 : (paddedOf K data).take 8 = beBytes 8 data.length := by
      rw [paddedOf_assoc]
      exact List.take_left' (beBytes_length 8 data.length)
    have hdrop8 : (paddedOf K data).drop 8 =
        data ++ List.replicate
          (shard_size K data.length * K - (8 + data.length)) 0 := by
      rw [paddedOf_assoc]
      exact List.drop_left' (beBytes_length 8 data.length)
    have hfrom : fromBe (beBytes 8 data.length) = data.length :=
      fromBe_beBytes_of_lt (by norm_num at hlen ⊢; omega)
    rw [decode]
    rw [if_neg (by rw [hMaskedLen]; exact fun h => h rfl)]
    rw [if_neg (not_lt.mpr hcnt)]
    rw [hrec]
    simp only [paddedOf_flatten K data hK]
    rw [if_neg (by omega : ¬ (paddedOf K data).length < 8)]
    rw [htake8, hfrom]
    rw [if_neg (by omega : ¬ data.length > (paddedOf K data).length - 8)]
    rw [hdrop8, List.take_left]
  · intro hcnt
    rw [decode]
    rw [if_neg (by rw [hMaskedLen]; exact fun h => h rfl)]
    rw [if_pos hcnt]

/-- Witness for C1 at K = 2, N = 3, data `[1, 2, 3]`: encoding yields 3
shards; with shards 0 and 2 present decoding returns the data; with only
shard 0 present decoding fails with the not-enough-shards error. -/
theorem erasure_encode_decode_witness :
    (encode 2 3 [1, 2, 3]).length = 3 ∧
    decode 2 3 (applyMask [true, false, true] (encode 2 3 [1, 2, 3])) =
      .ok [1, 2, 3] ∧
    decode 2 3 (applyMask [true, false, false] (encode 2 3 [1, 2, 3])) =
      .error (.Internal (notEnoughShardsMsg 2 1)) := by
  have h1 := erasure_encode_decode 2 3 [1, 2, 3] [true, false, true]
    (by norm_num) (by norm_num) (by norm_num) (by decide)
  have h2 := erasure_encode_decode 2 3 [1, 2, 3] [true, false, false]
    (by norm_num) (by norm_num) (by norm_num) (by decide)
  refine ⟨h1.1, h1.2.1 (by decide), ?_⟩
  have h3 := h2.2.2 (by decide)
  rw [show countSome (applyMask [true, false, false]
    (encode 2 3 [1, 2, 3])) = 1 from by decide] at h3
  exact h3

end Tgcryptfs
